import Mathlib

/-!
Verification of the append-only, length-delimited record store
(`internal/log/store.go` of Robbie08/proglog).

The store is shallowly embedded as a state `store` holding
* `file` — the bytes already flushed to the backing `*os.File`,
* `buf`  — the bytes sitting in the `bufio.Writer` in front of the file,
* `size` — the `uint64` logical end-of-file offset.

Bytes are modelled as `Nat` (payloads are opaque; only the 8-byte length
header is ever produced by the store itself, and its bytes are below 256
by construction).  `uint64` arithmetic is modelled as `Nat` with an
explicit `% 2^64` where the Go code performs wrapping addition.

I/O failures of the underlying file are injected through oracles of type
`Option Nat`: `none` means the write succeeds in full, `some k` means the
write fails after `k` bytes were accepted (mirroring Go's short-write
convention where `Write` returns the count written together with an
error).
-/

namespace Proglog

/-- `2^64`, the modulus of Go's `uint64`. -/
def U64 : Nat := 2 ^ 64

/-- `lenWidth = 8`: number of bytes used to store the record's length
(`const lenWidth = 8` in store.go). -/
def lenWidth : Nat := 8

/-- Big-endian encoding of `n` into exactly `w` bytes (the low `w` bytes
of `n`); `toBytesBE 8 n` is what `binary.Write(s.buf, binary.BigEndian,
uint64 n)` places into the buffer. -/
def toBytesBE : Nat → Nat → List Nat
  | 0, _ => []
  | w + 1, n => toBytesBE w (n / 256) ++ [n % 256]

/-- Big-endian decoding of a byte list, as `enc.Uint64(size)` does for an
8-byte slice. -/
def decBE (bs : List Nat) : Nat :=
  bs.foldl (fun acc b => acc * 256 + b) 0

/-- The store state: flushed file contents, buffered-writer contents, and
the `uint64` `size` field (`type store struct` in store.go). -/
structure store where
  file : List Nat
  buf : List Nat
  size : Nat

/-- `newStore(f)`: wraps a file whose current contents are `f`; `size` is
the file's current length (`size := uint64(fi.Size())`; the
`os.Stat` call is assumed to succeed, its failure only prevents the store
from being built). -/
def newStore (f : List Nat) : store :=
  { file := f, buf := [], size := f.length }

/-- One `s.buf.Write(data)` call: on oracle `none` all bytes enter the
buffer, on `some k` only the first `k` bytes do and an error is
reported (`false`). -/
def bufWrite (s : store) (data : List Nat) (o : Option Nat) : Bool × store :=
  match o with
  | none => (true, { s with buf := s.buf ++ data })
  | some k => (false, { s with buf := s.buf ++ data.take k })

/-- `s.buf.Flush()`: on success every buffered byte moves to the file; on
`some k` only `k` bytes move, the rest stay buffered (bufio keeps
unwritten data on error), and an error is reported. -/
def flush (s : store) (o : Option Nat) : Bool × store :=
  match o with
  | none => (true, { s with file := s.file ++ s.buf, buf := [] })
  | some k => (false, { s with file := s.file ++ s.buf.take k, buf := s.buf.drop k })

/-- `Append(p)`, with oracles `o1` for the `binary.Write` of the length
header and `o2` for the `s.buf.Write(p)` of the payload.  Returns
`((n, pos, err), s')` matching Go's `(n uint64, pos uint64, err error)`
together with the new state.  `err` is `true` when an error was
returned. -/
def Append (s : store) (p : List Nat) (o1 o2 : Option Nat) :
    (Nat × Nat × Bool) × store :=
  let pos := s.size
  match bufWrite s (toBytesBE lenWidth p.length) o1 with
  | (false, s1) => ((0, 0, true), s1)
  | (true, s1) =>
    match bufWrite s1 p o2 with
    | (false, s2) => ((0, 0, true), s2)
    | (true, s2) =>
      let w := p.length + lenWidth
      ((w, pos, false), { s2 with size := (s2.size + w) % U64 })

/-- `os.File.ReadAt` against contents `f`: fills exactly `len` bytes
starting at `off`, or fails (`none`) when the file is too short. -/
def fileReadAt (f : List Nat) (off len : Nat) : Option (List Nat) :=
  if off + len ≤ f.length then some ((f.drop off).take len) else none

/-- `Read(pos)`, with flush oracle `fo`.  Flushes the buffer, reads the
8-byte length header at `pos`, decodes it big-endian, then reads that
many payload bytes at `pos + lenWidth`.  Returns the payload (or `none`
on any failure) and the new state. -/
def Read (s : store) (pos : Nat) (fo : Option Nat) :
    Option (List Nat) × store :=
  match flush s fo with
  | (false, s1) => (none, s1)
  | (true, s1) =>
    match fileReadAt s1.file pos lenWidth with
    | none => (none, s1)
    | some sz =>
      match fileReadAt s1.file (pos + lenWidth) (decBE sz) with
      | none => (none, s1)
      | some b => (some b, s1)

/-- `ReadAt(p, off)` for a destination buffer of length `len`: flushes,
then reads `len` raw bytes at `off` straight from the file.  Returns the
bytes read (`none` on failure) and the new state. -/
def ReadAt (s : store) (len off : Nat) (fo : Option Nat) :
    Option (List Nat) × store :=
  match flush s fo with
  | (false, s1) => (none, s1)
  | (true, s1) => (fileReadAt s1.file off len, s1)

/-- `Close()`: flushes the buffer, then releases the file handle.  The
returned flag is `true` on success; the state keeps the final file
contents. -/
def Close (s : store) (fo : Option Nat) : Bool × store :=
  flush s fo

/-- The on-disk frame of one record: 8-byte big-endian length followed by
the payload bytes. -/
def frame (p : List Nat) : List Nat :=
  toBytesBE lenWidth p.length ++ p

/-- Concatenation of the frames of a list of payloads, in order. -/
def frames (ps : List (List Nat)) : List Nat :=
  (ps.map frame).flatten

/-- Total on-disk footprint of a list of payloads. -/
def footprint (ps : List (List Nat)) : Nat :=
  (ps.map (fun p => lenWidth + p.length)).sum

/-- Run a sequence of (successful) appends; returns the final state and
the list of `(n, pos)` results in order. -/
def appendAll (s : store) (ps : List (List Nat)) :
    store × List (Nat × Nat) :=
  match ps with
  | [] => (s, [])
  | p :: rest =>
    let r := Append s p none none
    let t := appendAll r.2 rest
    (t.1, (r.1.1, r.1.2.1) :: t.2)

/-- The size bookkeeping invariant: `size` equals the number of logically
appended bytes, flushed or buffered.  It holds for `newStore` and is
preserved by every successful operation. -/
def wf (s : store) : Prop :=
  s.size = s.file.length + s.buf.length

/-! ### Helper lemmas -/

theorem toBytesBE_length (w n : Nat) : (toBytesBE w n).length = w := by
  induction w generalizing n with
  | zero => rfl
  | succ w ih => simp [toBytesBE, ih]

theorem decBE_append_one (l : List Nat) (b : Nat) :
    decBE (l ++ [b]) = decBE l * 256 + b := by
  simp [decBE, List.foldl_append]

theorem decBE_toBytesBE (w n : Nat) : decBE (toBytesBE w n) = n % 256 ^ w := by
  induction w generalizing n with
  | zero => simp [toBytesBE, decBE, Nat.mod_one]
  | succ w ih =>
    rw [toBytesBE, decBE_append_one, ih, pow_succ', Nat.mod_mul]
    ring

theorem decBE_toBytesBE_of_lt (n : Nat) (h : n < U64) :
    decBE (toBytesBE lenWidth n) = n := by
  rw [decBE_toBytesBE, Nat.mod_eq_of_lt]
  have : (256 : Nat) ^ lenWidth = U64 := by norm_num [U64, lenWidth]
  omega

theorem take_length_eq (a b : List Nat) (n : Nat) (h : a.length = n) :
    (a ++ b).take n = a := by
  subst h; simp

theorem fileReadAt_append (a d : List Nat) (n : Nat) (h : n ≤ d.length) :
    fileReadAt (a ++ d) a.length n = some (d.take n) := by
  unfold fileReadAt
  rw [if_pos (by simp; omega)]
  simp

theorem frame_length (p : List Nat) :
    (frame p).length = lenWidth + p.length := by
  simp [frame, toBytesBE_length]

theorem frames_cons (p : List Nat) (ps : List (List Nat)) :
    frames (p :: ps) = frame p ++ frames ps := by
  simp [frames]

theorem footprint_cons (p : List Nat) (ps : List (List Nat)) :
    footprint (p :: ps) = (lenWidth + p.length) + footprint ps := by
  simp [footprint]

theorem frames_length (ps : List (List Nat)) :
    (frames ps).length = footprint ps := by
  induction ps with
  | nil => rfl
  | cons p ps ih => simp [frames_cons, footprint_cons, frame_length, ih]

theorem frames_append (xs ys : List (List Nat)) :
    frames (xs ++ ys) = frames xs ++ frames ys := by
  simp [frames]

/-- A successful `Append` in closed form. -/
theorem Append_ok (s : store) (p : List Nat) :
    Append s p none none =
      ((p.length + lenWidth, s.size, false),
        { s with buf := s.buf ++ frame p,
                 size := (s.size + (p.length + lenWidth)) % U64 }) := by
  simp [Append, bufWrite, frame]

/-- Reading at the start of a frame returns the frame's payload, for any
store whose logical contents split as `a ++ frame p ++ c`. -/
theorem Read_frame (s : store) (a p c : List Nat)
    (hfile : s.file ++ s.buf = a ++ (frame p ++ c))
    (hlen : p.length < U64) :
    Read s a.length none = (some p, { s with file := s.file ++ s.buf, buf := [] }) := by
  rw [Read]
  simp only [flush]
  have h8 : fileReadAt (s.file ++ s.buf) a.length lenWidth
      = some (toBytesBE lenWidth p.length) := by
    rw [hfile, fileReadAt_append a _ _ (by simp [frame_length, lenWidth]; omega)]
    have hsplit : frame p ++ c = toBytesBE lenWidth p.length ++ (p ++ c) := by
      simp [frame]
    rw [hsplit, take_length_eq _ _ _ (toBytesBE_length _ _)]
  have hp : fileReadAt (s.file ++ s.buf) (a.length + lenWidth) p.length
      = some p := by
    have hsplit : a ++ (frame p ++ c)
        = (a ++ toBytesBE lenWidth p.length) ++ (p ++ c) := by
      simp [frame]
    have hoff : a.length + lenWidth
        = (a ++ toBytesBE lenWidth p.length).length := by
      simp [toBytesBE_length]
    rw [hfile, hsplit, hoff, fileReadAt_append _ _ _ (by simp)]
    rw [take_length_eq p c _ rfl]
  simp [h8, hp, decBE_toBytesBE_of_lt p.length hlen]

theorem appendAll_file (s : store) (ps : List (List Nat)) :
    (appendAll s ps).1.file = s.file := by
  induction ps generalizing s with
  | nil => rfl
  | cons p ps ih => simp [appendAll, Append_ok, ih]

theorem appendAll_buf (s : store) (ps : List (List Nat)) :
    (appendAll s ps).1.buf = s.buf ++ frames ps := by
  induction ps generalizing s with
  | nil => simp [appendAll, frames]
  | cons p ps ih => simp [appendAll, Append_ok, ih, frames_cons]

theorem appendAll_size (s : store) (ps : List (List Nat))
    (hov : s.size + footprint ps < U64) :
    (appendAll s ps).1.size = s.size + footprint ps := by
  induction ps generalizing s with
  | nil => simp [appendAll, footprint]
  | cons p ps ih =>
    have hfc := footprint_cons p ps
    have h1 : (s.size + (p.length + lenWidth)) % U64
        = s.size + (p.length + lenWidth) := Nat.mod_eq_of_lt (by omega)
    simp only [appendAll, Append_ok]
    rw [ih _ (by simp only [h1]; omega)]
    simp only [h1]
    omega

theorem appendAll_length (s : store) (ps : List (List Nat)) :
    (appendAll s ps).2.length = ps.length := by
  induction ps generalizing s with
  | nil => rfl
  | cons p ps ih => simp [appendAll, ih]

theorem appendAll_pos (ps : List (List Nat)) (s : store) (i : Nat)
    (hov : s.size + footprint ps < U64) (hi : i < ps.length) :
    ((appendAll s ps).2.getD i (0, 0)).2 = s.size + footprint (ps.take i) := by
  induction ps generalizing s i with
  | nil => simp at hi
  | cons p ps ih =>
    have hfc := footprint_cons p ps
    have h1 : (s.size + (p.length + lenWidth)) % U64
        = s.size + (p.length + lenWidth) := Nat.mod_eq_of_lt (by omega)
    cases i with
    | zero => simp [appendAll, Append_ok, footprint]
    | succ i =>
      simp only [appendAll, Append_ok, List.getD_cons_succ]
      rw [ih _ _ (by simp only [h1]; omega) (by simpa using hi)]
      simp only [h1, List.take_succ_cons, footprint_cons]
      omega

theorem footprint_take_succ (ps : List (List Nat)) (i : Nat)
    (hi : i < ps.length) :
    footprint (ps.take (i + 1))
      = footprint (ps.take i) + (lenWidth + (ps.getD i []).length) := by
  induction ps generalizing i with
  | nil => simp at hi
  | cons p ps ih =>
    cases i with
    | zero => simp [footprint_cons, footprint]
    | succ i =>
      have := ih i (by simpa using hi)
      simp only [List.take_succ_cons, footprint_cons, List.getD_cons_succ]
      omega

theorem footprint_getD_le (ps : List (List Nat)) (i : Nat)
    (hi : i < ps.length) :
    lenWidth + (ps.getD i []).length ≤ footprint ps := by
  induction ps generalizing i with
  | nil => simp at hi
  | cons p ps ih =>
    cases i with
    | zero => simp [footprint_cons]
    | succ i =>
      have := ih i (by simpa using hi)
      simp only [footprint_cons, List.getD_cons_succ]
      omega

theorem frames_split (ps : List (List Nat)) (i : Nat) (hi : i < ps.length) :
    frames ps
      = frames (ps.take i)
        ++ (frame (ps.getD i []) ++ frames (ps.drop (i + 1))) := by
  conv_lhs => rw [← List.take_append_drop i ps]
  rw [frames_append]
  congr 1
  rw [List.drop_eq_getElem_cons hi, frames_cons, List.getD_eq_getElem ps [] hi]

/-- `Read` leaves the store exactly as the initial flush left it,
whichever branch returns. -/
theorem Read_state (s : store) (pos : Nat) (fo : Option Nat) :
    (Read s pos fo).2 = (flush s fo).2 := by
  unfold Read
  rcases hf : flush s fo with ⟨b, s1⟩
  cases b
  · simp
  · simp only
    rcases h8 : fileReadAt s1.file pos lenWidth with _ | sz
    · simp
    · simp only
      rcases hp : fileReadAt s1.file (pos + lenWidth) (decBE sz) with _ | b2 <;>
        simp

/-- `ReadAt` leaves the store exactly as the initial flush left it. -/
theorem ReadAt_state (s : store) (len off : Nat) (fo : Option Nat) :
    (ReadAt s len off fo).2 = (flush s fo).2 := by
  unfold ReadAt
  rcases hf : flush s fo with ⟨b, s1⟩
  cases b <;> simp

/-- `flush` never touches `size`. -/
theorem flush_size (s : store) (fo : Option Nat) :
    (flush s fo).2.size = s.size := by
  cases fo <;> simp [flush]

/-! ### Claims -/

/-- C1: for every payload `p` (the empty one included), appending `p` and
then calling `Read` on the position that `Append` returned, on the same
store instance and with no explicit flush in between, returns exactly the
bytes of `p`.  The store is any state satisfying the size bookkeeping
invariant `wf` (true of every store reachable by successful operations),
and `p` fits in a `uint64` length field. -/
theorem C1_append_then_read_roundtrip (s : store) (p : List Nat)
    (hwf : wf s) (hlen : p.length < U64) :
    (Read (Append s p none none).2 (Append s p none none).1.2.1 none).1
      = some p := by
  unfold wf at hwf
  have h := Read_frame (Append s p none none).2 (s.file ++ s.buf) p []
    (by simp [Append_ok, frame]) hlen
  have hpos : (Append s p none none).1.2.1 = (s.file ++ s.buf).length := by
    simp [Append_ok, hwf]
  rw [hpos, h]

/-- Witness for C1 at a concrete input. -/
theorem C1_append_then_read_roundtrip_witness :
    (Read (Append (newStore []) [42] none none).2
        (Append (newStore []) [42] none none).1.2.1 none).1 = some [42] :=
  C1_append_then_read_roundtrip (newStore []) [42] rfl
    (by norm_num [U64])

/-- C2: a successful `Append p` returns `bytes_written = lenWidth +
len p` (that is, `8 + len p`) and `position` equal to the store's `size`
before the call, and advances `size` by exactly `bytes_written` (stated
below the `uint64` wrap-around bound). -/
theorem C2_append_accounting (s : store) (p : List Nat)
    (hov : s.size + (p.length + lenWidth) < U64) :
    (Append s p none none).1.1 = lenWidth + p.length ∧
    (Append s p none none).1.2.1 = s.size ∧
    (Append s p none none).2.size = s.size + (Append s p none none).1.1 := by
  refine ⟨by simp [Append_ok]; omega, by simp [Append_ok], ?_⟩
  simp [Append_ok, Nat.mod_eq_of_lt hov]

/-- Witness for C2 at a concrete input. -/
theorem C2_append_accounting_witness :
    (Append (newStore []) [1, 2] none none).1.1 = lenWidth + 2 ∧
    (Append (newStore []) [1, 2] none none).1.2.1 = 0 ∧
    (Append (newStore []) [1, 2] none none).2.size
      = 0 + (Append (newStore []) [1, 2] none none).1.1 :=
  C2_append_accounting (newStore []) [1, 2] (by norm_num [U64, lenWidth, newStore])

/-- C3: on a fresh store (size 0), the position returned for the
`(i+1)`-st append equals the position for the `i`-th plus `lenWidth +
len p_i`; positions are strictly increasing (stated below the `uint64`
wrap-around bound). -/
theorem C3_position_monotonicity (ps : List (List Nat)) (i : Nat)
    (hov : footprint ps < U64) (hi : i + 1 < ps.length) :
    ((appendAll (newStore []) ps).2.getD (i + 1) (0, 0)).2
      = ((appendAll (newStore []) ps).2.getD i (0, 0)).2
        + (lenWidth + (ps.getD i []).length) ∧
    ((appendAll (newStore []) ps).2.getD i (0, 0)).2
      < ((appendAll (newStore []) ps).2.getD (i + 1) (0, 0)).2 := by
  have hov0 : (newStore []).size + footprint ps < U64 := by
    simpa [newStore] using hov
  have hp1 := appendAll_pos ps (newStore []) i hov0 (by omega)
  have hp2 := appendAll_pos ps (newStore []) (i + 1) hov0 hi
  have hstep := footprint_take_succ ps i (by omega)
  have hw : lenWidth = 8 := rfl
  rw [hp1, hp2, hstep]
  omega

/-- Witness for C3 at a concrete input. -/
theorem C3_position_monotonicity_witness :
    ((appendAll (newStore []) [[1], [2, 3]]).2.getD 1 (0, 0)).2
      = ((appendAll (newStore []) [[1], [2, 3]]).2.getD 0 (0, 0)).2
        + (lenWidth + ([[1], [2, 3]].getD 0 []).length) ∧
    ((appendAll (newStore []) [[1], [2, 3]]).2.getD 0 (0, 0)).2
      < ((appendAll (newStore []) [[1], [2, 3]]).2.getD 1 (0, 0)).2 :=
  C3_position_monotonicity [[1], [2, 3]] 0
    (by norm_num [U64, footprint, lenWidth]) (by norm_num)

/-- C4: `newStore` on an existing file takes its `size` from the file's
current length; concretely, after appending `p1` to a fresh store and
closing it, a new store instance opened on the resulting file reads `p1`
back at the position the original `Append` returned, and its next
`Append` returns position `lenWidth + len p1` — no truncation, duplicate
write or gap. -/
theorem C4_restart_recovery (f p1 p2 : List Nat) (h1 : p1.length < U64) :
    (newStore f).size = f.length ∧
    (Read (newStore (Close (Append (newStore []) p1 none none).2 none).2.file)
        (Append (newStore []) p1 none none).1.2.1 none).1 = some p1 ∧
    (Append (newStore (Close (Append (newStore []) p1 none none).2 none).2.file)
        p2 none none).1.2.1 = lenWidth + p1.length := by
  have hfile : (Close (Append (newStore []) p1 none none).2 none).2.file
      = frame p1 := by
    simp [Close, flush, Append_ok, newStore]
  have hpos : (Append (newStore []) p1 none none).1.2.1 = 0 := by
    simp [Append_ok, newStore]
  have hr := Read_frame (newStore (frame p1)) [] p1 []
    (by simp [newStore]) h1
  refine ⟨rfl, ?_, ?_⟩
  · rw [hfile, hpos]
    simpa using congrArg Prod.fst hr
  · rw [hfile]
    simp [Append_ok, newStore, frame_length]

/-- Witness for C4 at a concrete input. -/
theorem C4_restart_recovery_witness :
    (newStore [5]).size = [5].length ∧
    (Read (newStore (Close (Append (newStore []) [1] none none).2 none).2.file)
        (Append (newStore []) [1] none none).1.2.1 none).1 = some [1] ∧
    (Append (newStore (Close (Append (newStore []) [1] none none).2 none).2.file)
        [] none none).1.2.1 = lenWidth + [1].length :=
  C4_restart_recovery [5] [1] [] (by norm_num [U64])

/-- C5: after any sequence of successful appends on a fresh store over an
empty file, the flush performed by `Close`, `Read` or `ReadAt` leaves the
backing file holding exactly the concatenation, in append order from
offset 0, of frames `[8-byte big-endian length][payload]`, with nothing
in between; and each frame's length prefix decodes (big-endian) to
exactly its payload's byte count. -/
theorem C5_on_disk_format (ps : List (List Nat)) (pos len off : Nat)
    (h : ∀ p ∈ ps, p.length < U64) :
    (Close (appendAll (newStore []) ps).1 none).2.file = frames ps ∧
    (Read (appendAll (newStore []) ps).1 pos none).2.file = frames ps ∧
    (ReadAt (appendAll (newStore []) ps).1 len off none).2.file = frames ps ∧
    ∀ p ∈ ps, decBE (toBytesBE lenWidth p.length) = p.length := by
  have hflush : (flush (appendAll (newStore []) ps).1 none).2.file
      = frames ps := by
    simp [flush, appendAll_file, appendAll_buf, newStore]
  refine ⟨?_, ?_, ?_, ?_⟩
  · simpa [Close] using hflush
  · rw [Read_state]; exact hflush
  · rw [ReadAt_state]; exact hflush
  · exact fun p hp => decBE_toBytesBE_of_lt p.length (h p hp)

/-- Witness for C5 at a concrete input. -/
theorem C5_on_disk_format_witness :
    (Close (appendAll (newStore []) [[7], [8, 9]]).1 none).2.file
      = frames [[7], [8, 9]] ∧
    (Read (appendAll (newStore []) [[7], [8, 9]]).1 0 none).2.file
      = frames [[7], [8, 9]] ∧
    (ReadAt (appendAll (newStore []) [[7], [8, 9]]).1 3 0 none).2.file
      = frames [[7], [8, 9]] ∧
    ∀ p ∈ [[7], [8, 9]], decBE (toBytesBE lenWidth p.length) = p.length :=
  C5_on_disk_format [[7], [8, 9]] 0 3 0
    (by intro p hp; fin_cases hp <;> norm_num [U64])

/-- C6: `Close` flushes all buffered, not-yet-persisted bytes to the
backing file before releasing the handle: it succeeds, and a fresh store
opened on the resulting file reads back every appended record at the
position its `Append` returned, even though the caller never requested
an interim flush. -/
theorem C6_close_durability (ps : List (List Nat)) (i : Nat)
    (hov : footprint ps < U64) (hi : i < ps.length) :
    (Close (appendAll (newStore []) ps).1 none).1 = true ∧
    (Read (newStore (Close (appendAll (newStore []) ps).1 none).2.file)
        (((appendAll (newStore []) ps).2.getD i (0, 0)).2) none).1
      = some (ps.getD i []) := by
  have hov0 : (newStore ([] : List Nat)).size + footprint ps < U64 := by
    simpa [newStore] using hov
  have hfile : (Close (appendAll (newStore []) ps).1 none).2.file
      = frames ps := by
    simp [Close, flush, appendAll_file, appendAll_buf, newStore]
  have hpos := appendAll_pos ps (newStore []) i hov0 hi
  have hlen : (ps.getD i []).length < U64 := by
    have h1 := footprint_getD_le ps i hi
    have h2 : lenWidth = 8 := rfl
    omega
  have hsplit := frames_split ps i hi
  have hr := Read_frame (newStore (frames ps)) (frames (ps.take i))
      (ps.getD i []) (frames (ps.drop (i + 1)))
      (by simp [newStore, hsplit]) hlen
  refine ⟨by simp [Close, flush], ?_⟩
  rw [hfile, hpos]
  have hoff : (newStore ([] : List Nat)).size + footprint (ps.take i)
      = (frames (ps.take i)).length := by
    simp [newStore, frames_length]
  rw [hoff]
  simpa using congrArg Prod.fst hr

/-- Witness for C6 at a concrete input. -/
theorem C6_close_durability_witness :
    (Close (appendAll (newStore []) [[3], [4, 5]]).1 none).1 = true ∧
    (Read (newStore (Close (appendAll (newStore []) [[3], [4, 5]]).1 none).2.file)
        (((appendAll (newStore []) [[3], [4, 5]]).2.getD 1 (0, 0)).2) none).1
      = some ([[3], [4, 5]].getD 1 []) :=
  C6_close_durability [[3], [4, 5]] 1 (by decide) (by decide)

/-- C7: `ReadAt` flushes the write buffer first and then fills exactly
`len` bytes from the backing file at offset `off`, failing exactly when
the file is too short; reading the 8-byte header at a record's position
and decoding it big-endian yields the payload length used to construct
that record. -/
theorem C7_readat_exactness (s : store) (p : List Nat) (len off : Nat)
    (hwf : wf s) (hlen : p.length < U64) :
    (∀ bs, (ReadAt s len off none).1 = some bs →
      bs.length = len ∧ bs = ((s.file ++ s.buf).drop off).take len) ∧
    ((ReadAt s len off none).1 = none ↔
      (s.file ++ s.buf).length < off + len) ∧
    (ReadAt (Append s p none none).2 lenWidth
        (Append s p none none).1.2.1 none).1
      = some (toBytesBE lenWidth p.length) ∧
    decBE (toBytesBE lenWidth p.length) = p.length := by
  unfold wf at hwf
  have hra : ∀ (t : store) (l o : Nat),
      (ReadAt t l o none).1 = fileReadAt (t.file ++ t.buf) o l := by
    intro t l o
    simp [ReadAt, flush]
  refine ⟨?_, ?_, ?_, decBE_toBytesBE_of_lt p.length hlen⟩
  · intro bs h
    rw [hra] at h
    unfold fileReadAt at h
    split_ifs at h with hc
    · have hbs : bs = ((s.file ++ s.buf).drop off).take len := by
        simpa using h.symm
      subst hbs
      refine ⟨?_, rfl⟩
      simp only [List.length_take, List.length_drop]
      omega
  · rw [hra]
    unfold fileReadAt
    split_ifs with hc
    · simp only [reduceCtorEq, false_iff, not_lt]
      omega
    · simp only [true_iff]
      omega
  · have hpos : (Append s p none none).1.2.1 = (s.file ++ s.buf).length := by
      simp [Append_ok, hwf]
    have hcat : (Append s p none none).2.file ++ (Append s p none none).2.buf
        = (s.file ++ s.buf) ++ frame p := by
      simp [Append_ok]
    rw [hra, hpos, hcat,
      fileReadAt_append _ _ _ (by simp [frame_length, lenWidth])]
    simp only [frame]
    rw [take_length_eq _ _ _ (toBytesBE_length _ _)]

/-- Witness for C7 at a concrete input. -/
theorem C7_readat_exactness_witness :
    (∀ bs, (ReadAt (newStore [9]) 1 0 none).1 = some bs →
      bs.length = 1 ∧
      bs = (((newStore [9]).file ++ (newStore [9]).buf).drop 0).take 1) ∧
    ((ReadAt (newStore [9]) 1 0 none).1 = none ↔
      ((newStore [9]).file ++ (newStore [9]).buf).length < 0 + 1) ∧
    (ReadAt (Append (newStore [9]) [6, 7] none none).2 lenWidth
        (Append (newStore [9]) [6, 7] none none).1.2.1 none).1
      = some (toBytesBE lenWidth ([6, 7] : List Nat).length) ∧
    decBE (toBytesBE lenWidth ([6, 7] : List Nat).length)
      = ([6, 7] : List Nat).length :=
  C7_readat_exactness (newStore [9]) [6, 7] 1 0 rfl (by norm_num [U64])

/-- C8: an `Append` whose length-header write fails, or whose payload
write fails, reports an error and does not advance `size`; the bytes
already placed into the write buffer before the failure (a short piece of
the header, or the whole header plus a short piece of the payload) are
not rolled back, and the flushed file is untouched. -/
theorem C8_append_failure_no_rollback (s : store) (p : List Nat) (k : Nat) :
    ((Append s p (some k) none).1.2.2 = true ∧
     (Append s p (some k) none).2.size = s.size ∧
     (Append s p (some k) none).2.buf
       = s.buf ++ (toBytesBE lenWidth p.length).take k ∧
     (Append s p (some k) none).2.file = s.file) ∧
    ((Append s p none (some k)).1.2.2 = true ∧
     (Append s p none (some k)).2.size = s.size ∧
     (Append s p none (some k)).2.buf
       = s.buf ++ (toBytesBE lenWidth p.length ++ p.take k) ∧
     (Append s p none (some k)).2.file = s.file) := by
  refine ⟨⟨?_, ?_, ?_, ?_⟩, ⟨?_, ?_, ?_, ?_⟩⟩ <;> simp [Append, bufWrite]

/-- C9: whenever `Append` returns an error, the returned `bytes_written`
and `position` are both 0, whatever the store's `size` was; the
pre-append size is never reported on the error path. -/
theorem C9_append_error_returns_zero (s : store) (p : List Nat)
    (o1 o2 : Option Nat) (h : (Append s p o1 o2).1.2.2 = true) :
    (Append s p o1 o2).1.1 = 0 ∧ (Append s p o1 o2).1.2.1 = 0 := by
  cases o1 with
  | some k => simp [Append, bufWrite]
  | none =>
    cases o2 with
    | some k => simp [Append, bufWrite]
    | none => simp [Append_ok] at h

/-- Witness for C9 at a concrete input (store with nonzero size, failing
header write). -/
theorem C9_append_error_returns_zero_witness :
    (Append (newStore [1, 2, 3]) [4] (some 0) none).1.1 = 0 ∧
    (Append (newStore [1, 2, 3]) [4] (some 0) none).1.2.1 = 0 :=
  C9_append_error_returns_zero (newStore [1, 2, 3]) [4] (some 0) none
    (by decide)

/-- C10: `Read`, `ReadAt` and `Close` never modify `size`, whether they
succeed or fail; a failed `Append` leaves `size` unchanged and a
successful one (below the `uint64` wrap-around bound) only increases it,
so `size` never decreases across any sequence of operations. -/
theorem C10_size_frame (s : store) (p : List Nat) (pos len off : Nat)
    (fo o1 o2 : Option Nat) :
    (Read s pos fo).2.size = s.size ∧
    (ReadAt s len off fo).2.size = s.size ∧
    (Close s fo).2.size = s.size ∧
    ((Append s p o1 o2).1.2.2 = true → (Append s p o1 o2).2.size = s.size) ∧
    (s.size + (p.length + lenWidth) < U64 →
      s.size ≤ (Append s p o1 o2).2.size) := by
  refine ⟨?_, ?_, flush_size s fo, ?_, ?_⟩
  · rw [Read_state, flush_size]
  · rw [ReadAt_state, flush_size]
  · cases o1 with
    | some k => intro _; simp [Append, bufWrite]
    | none =>
      cases o2 with
      | some k => intro _; simp [Append, bufWrite]
      | none => intro h; simp [Append_ok] at h
  · intro hov
    cases o1 with
    | some k => simp [Append, bufWrite]
    | none =>
      cases o2 with
      | some k => simp [Append, bufWrite]
      | none => simp [Append_ok, Nat.mod_eq_of_lt hov]

/-- Witness for C10 at concrete inputs: the implications of the theorem
discharged at a failing append and at a successful one. -/
theorem C10_size_frame_witness :
    (Append (newStore []) [2] (some 0) none).2.size = (newStore []).size ∧
    (newStore []).size ≤ (Append (newStore []) [2] none none).2.size :=
  ⟨(C10_size_frame (newStore []) [2] 0 0 0 none (some 0) none).2.2.2.1
      (by decide),
   (C10_size_frame (newStore []) [2] 0 0 0 none none none).2.2.2.2
      (by decide)⟩

end Proglog
